import Mathlib

/-!
Verification of the content-addressed chunk storage and reserve management
core of the bee-tron node (`pkg/storer` and its internal packages), against
its natural-language specification.  The chunk store, reserve, cache,
transaction and migration-framework code is modelled from the specification
(the sampled repository fragment holds only their tests and callers); the
cache-format migration `step_02` is translated from the source.
-/

namespace BeeTron

/-! ## Association lists

The typed key-value records of the Index Store are modelled as association
lists with decidable key equality. -/

section Assoc

variable {α β : Type} [DecidableEq α]

/-- Look up the value bound to key `a` (first occurrence). -/
def alookup : List (α × β) → α → Option β
  | [], _ => none
  | e :: rest, a => if e.1 = a then some e.2 else alookup rest a

/-- Bind key `a` to value `b`: overwrite the first occurrence in place, or
append a fresh record at the end. -/
def aput : List (α × β) → α → β → List (α × β)
  | [], a, b => [(a, b)]
  | e :: rest, a, b => if e.1 = a then (a, b) :: rest else e :: aput rest a b

/-- Remove every record keyed `a`. -/
def aerase : List (α × β) → α → List (α × β)
  | [], _ => []
  | e :: rest, a => if e.1 = a then aerase rest a else e :: aerase rest a

theorem alookup_aput_self (l : List (α × β)) (a : α) (b : β) :
    alookup (aput l a b) a = some b := by
  induction l with
  | nil => simp [aput, alookup]
  | cons e rest ih =>
    by_cases h : e.1 = a
    · simp [aput, h, alookup]
    · simp [aput, h, alookup, ih]

theorem alookup_aput_ne (l : List (α × β)) (a a' : α) (b : β) (h : a' ≠ a) :
    alookup (aput l a b) a' = alookup l a' := by
  have ha' : ¬ a = a' := fun hh => h hh.symm
  induction l with
  | nil => simp [aput, alookup, ha']
  | cons e rest ih =>
    by_cases he : e.1 = a
    · have he' : ¬ e.1 = a' := by rw [he]; exact ha'
      rw [aput, if_pos he]
      simp only [alookup, if_neg ha', if_neg he']
    · simp only [aput, if_neg he, alookup, ih]

theorem alookup_aerase_self (l : List (α × β)) (a : α) :
    alookup (aerase l a) a = none := by
  induction l with
  | nil => rfl
  | cons e rest ih =>
    by_cases he : e.1 = a
    · rw [aerase, if_pos he]; exact ih
    · rw [aerase, if_neg he, alookup, if_neg he]; exact ih

theorem alookup_aerase_ne (l : List (α × β)) (a a' : α) (h : a' ≠ a) :
    alookup (aerase l a) a' = alookup l a' := by
  induction l with
  | nil => rfl
  | cons e rest ih =>
    by_cases he : e.1 = a
    · have he' : ¬ e.1 = a' := by rw [he]; exact fun hh => h hh.symm
      simp only [aerase, if_pos he, alookup, if_neg he', ih]
    · simp only [aerase, if_neg he, alookup, ih]

theorem alookup_eq_none_iff (l : List (α × β)) (a : α) :
    alookup l a = none ↔ ∀ e ∈ l, e.1 ≠ a := by
  induction l with
  | nil => simp [alookup]
  | cons e rest ih =>
    by_cases h : e.1 = a
    · simp [alookup, h]
    · simp [alookup, h, ih]

theorem alookup_mem (l : List (α × β)) (a : α) (b : β) (h : alookup l a = some b) :
    (a, b) ∈ l := by
  induction l with
  | nil => simp [alookup] at h
  | cons e rest ih =>
    by_cases he : e.1 = a
    · rw [alookup, if_pos he] at h
      obtain ⟨x, y⟩ := e
      obtain rfl : x = a := he
      obtain rfl : y = b := Option.some.inj h
      exact List.mem_cons_self _ _
    · rw [alookup, if_neg he] at h
      exact List.mem_cons_of_mem _ (ih h)

/-- The keys of an association list. -/
def akeys (l : List (α × β)) : List α := l.map Prod.fst

theorem akeys_aput_of_mem (l : List (α × β)) (a : α) (b : β)
    (h : a ∈ akeys l) : akeys (aput l a b) = akeys l := by
  induction l with
  | nil => simp [akeys] at h
  | cons e rest ih =>
    by_cases he : e.1 = a
    · simp [aput, he, akeys]
    · rcases (List.mem_cons.mp h) with h1 | h2
      · exact absurd h1.symm he
      · simp only [aput, if_neg he, akeys, List.map_cons]
        rw [show List.map Prod.fst (aput rest a b) = akeys (aput rest a b) from rfl,
          ih h2]
        rfl

end Assoc

/-! ## Chunk Store -/

/-- A chunk address: a fixed-width content digest, modelled as its byte list. -/
abbrev Address := List Nat

/-- A chunk payload: a bounded byte buffer, modelled as its byte list. -/
abbrev Payload := List Nat

/-- A blob-store location (shard/offset/length collapsed to one identifier,
which is all the chunk-store metadata layer depends on). -/
abbrev Loc := Nat

/-- A chunk: content address plus payload.  The postage stamp plays no role
in the chunk-store claims and is omitted. -/
structure Chunk where
  addr : Address
  payload : Payload
deriving DecidableEq, Repr

/-- Modelled from the spec: the Chunk Store composes the Blob Store and the
Index Store.  `index` is the retrieval index, mapping a chunk address to its
reference count and blob location; `blobs` is the blob store, mapping a
location to the payload bytes held there; `nextLoc` is the next fresh
location the allocator hands out. -/
structure ChunkStore where
  index : List (Address × Nat × Loc)
  blobs : List (Loc × Payload)
  nextLoc : Loc
deriving DecidableEq, Repr

/-- The empty chunk store. -/
def ChunkStore.empty : ChunkStore := ⟨[], [], 0⟩

/-- Look up the retrieval-index record (reference count, location) of an
address. -/
def ChunkStore.lookupIndex (s : ChunkStore) (a : Address) : Option (Nat × Loc) :=
  alookup s.index a

/-- Look up the payload stored at a blob location. -/
def ChunkStore.lookupBlob (s : ChunkStore) (l : Loc) : Option Payload :=
  alookup s.blobs l

/-- Modelled from the spec: Chunk Store `Put`.  If the address already exists
the reference count is incremented and no new blob location is allocated
(content-addressed dedup); on a first `Put` a blob location is allocated, the
payload stored there, and a metadata record with reference count 1 created,
in one transaction. -/
def ChunkStore.put (s : ChunkStore) (c : Chunk) : ChunkStore :=
  match s.lookupIndex c.addr with
  | some (rc, loc) => { s with index := aput s.index c.addr (rc + 1, loc) }
  | none =>
    { index := aput s.index c.addr (1, s.nextLoc)
      blobs := aput s.blobs s.nextLoc c.payload
      nextLoc := s.nextLoc + 1 }

/-- Outcome of a Chunk Store `Get`: the chunk, `ErrNotFound`, or a fatal
integrity error (metadata present but payload missing). -/
inductive GetResult where
  | found (c : Chunk)
  | notFound
  | integrityError
deriving DecidableEq, Repr

/-- Modelled from the spec: Chunk Store `Get` resolves metadata first, then
fetches the payload from the Blob Store; a miss on the second layer is a
fatal integrity error, a miss on the first is `ErrNotFound`. -/
def ChunkStore.get (s : ChunkStore) (a : Address) : GetResult :=
  match s.lookupIndex a with
  | none => .notFound
  | some (_, loc) =>
    match s.lookupBlob loc with
    | none => .integrityError
    | some p => .found ⟨a, p⟩

/-- Modelled from the spec: Chunk Store `Delete` decrements the reference
count; only at zero does it release the Blob Store location and remove the
metadata record, in the same transaction. -/
def ChunkStore.delete (s : ChunkStore) (a : Address) : ChunkStore :=
  match s.lookupIndex a with
  | none => s
  | some (rc, loc) =>
    if rc ≤ 1 then
      { s with
        index := aerase s.index a
        blobs := aerase s.blobs loc }
    else
      { s with index := aput s.index a (rc - 1, loc) }

/-- Modelled from the spec: Chunk Store `Has` is a retrieval-index lookup. -/
def ChunkStore.has (s : ChunkStore) (a : Address) : Bool :=
  (s.lookupIndex a).isSome

/-- Well-formedness of a chunk-store state under content addressing by
`hash`: every indexed record points at a live blob holding a payload whose
digest is the indexed address. -/
def ChunkStore.wf (hash : Payload → Address) (s : ChunkStore) : Bool :=
  s.index.all (fun e =>
    match alookup s.blobs e.2.2 with
    | some p => hash p = e.1
    | none => false)

theorem put_fresh (s : ChunkStore) (c : Chunk) (h : s.lookupIndex c.addr = none) :
    s.put c =
      { index := aput s.index c.addr (1, s.nextLoc)
        blobs := aput s.blobs s.nextLoc c.payload
        nextLoc := s.nextLoc + 1 } := by
  simp only [ChunkStore.put, h]

theorem put_existing (s : ChunkStore) (c : Chunk) (rc : Nat) (loc : Loc)
    (h : s.lookupIndex c.addr = some (rc, loc)) :
    s.put c = { s with index := aput s.index c.addr (rc + 1, loc) } := by
  simp only [ChunkStore.put, h]

theorem put_fresh_lookups (s : ChunkStore) (c : Chunk) (h : s.lookupIndex c.addr = none) :
    (s.put c).lookupIndex c.addr = some (1, s.nextLoc) ∧
    (s.put c).lookupBlob s.nextLoc = some c.payload := by
  rw [put_fresh s c h]
  exact ⟨alookup_aput_self _ _ _, alookup_aput_self _ _ _⟩

theorem put_existing_lookups (s : ChunkStore) (c : Chunk) (rc : Nat) (loc : Loc)
    (h : s.lookupIndex c.addr = some (rc, loc)) :
    (s.put c).lookupIndex c.addr = some (rc + 1, loc) ∧ (s.put c).blobs = s.blobs := by
  rw [put_existing s c rc loc h]
  exact ⟨alookup_aput_self _ _ _, rfl⟩

theorem delete_dec_lookups (s : ChunkStore) (a : Address) (rc : Nat) (loc : Loc)
    (h : s.lookupIndex a = some (rc, loc)) (hrc : 1 < rc) :
    (s.delete a).lookupIndex a = some (rc - 1, loc) ∧ (s.delete a).blobs = s.blobs := by
  have hne : ¬ rc ≤ 1 := by omega
  have hd : s.delete a = { s with index := aput s.index a (rc - 1, loc) } := by
    simp only [ChunkStore.delete, h, if_neg hne]
  rw [hd]
  exact ⟨alookup_aput_self _ _ _, rfl⟩

theorem delete_zero_lookups (s : ChunkStore) (a : Address) (loc : Loc)
    (h : s.lookupIndex a = some (1, loc)) :
    (s.delete a).lookupIndex a = none ∧ (s.delete a).lookupBlob loc = none := by
  have hd : s.delete a =
      { s with index := aerase s.index a, blobs := aerase s.blobs loc } := by
    simp only [ChunkStore.delete, h, if_pos (le_refl 1)]
  rw [hd]
  exact ⟨alookup_aerase_self _ _, alookup_aerase_self _ _⟩

theorem get_notFound_of (s : ChunkStore) (a : Address) (h : s.lookupIndex a = none) :
    s.get a = .notFound := by
  simp only [ChunkStore.get, h]

theorem get_found_of (s : ChunkStore) (a : Address) (rc : Nat) (loc : Loc) (p : Payload)
    (h1 : s.lookupIndex a = some (rc, loc)) (h2 : s.lookupBlob loc = some p) :
    s.get a = .found ⟨a, p⟩ := by
  simp only [ChunkStore.get, h1, h2]

/-- A well-formed store resolves every indexed location to a payload whose
digest is the indexed address. -/
theorem wf_resolves (hash : Payload → Address) (s : ChunkStore)
    (hwf : s.wf hash = true) (a : Address) (rc : Nat) (loc : Loc)
    (h : s.lookupIndex a = some (rc, loc)) :
    ∃ p, s.lookupBlob loc = some p ∧ hash p = a := by
  have hmem : (a, (rc, loc)) ∈ s.index := alookup_mem _ _ _ h
  have hall := (List.all_eq_true.mp hwf) _ hmem
  have hall' : (match alookup s.blobs loc with
      | some p => decide (hash p = a)
      | none => false) = true := hall
  cases hb : alookup s.blobs loc with
  | none => rw [hb] at hall'; exact absurd hall' Bool.false_ne_true
  | some p =>
    rw [hb] at hall'
    exact ⟨p, hb, of_decide_eq_true hall'⟩

/-- C1.  Content-addressing round-trip: for every chunk `c` whose address is
the digest of its payload, after `Put(c)` on a well-formed Chunk Store, `Get`
at `c`'s content address returns a chunk equal to `c` (same address and
payload). -/
theorem contentAddressing_roundtrip (hash : Payload → Address)
    (hinj : Function.Injective hash) (s : ChunkStore) (c : Chunk)
    (hwf : s.wf hash = true) (hc : hash c.payload = c.addr) :
    (s.put c).get c.addr = .found c := by
  cases hidx : s.lookupIndex c.addr with
  | none =>
    obtain ⟨h1, h2⟩ := put_fresh_lookups s c hidx
    exact get_found_of (s.put c) c.addr 1 s.nextLoc c.payload h1 h2
  | some v =>
    obtain ⟨rc, loc⟩ := v
    obtain ⟨p, hblob, hhash⟩ := wf_resolves hash s hwf c.addr rc loc hidx
    have hp : p = c.payload := hinj (hhash.trans hc.symm)
    obtain ⟨h1, hb⟩ := put_existing_lookups s c rc loc hidx
    have h2 : (s.put c).lookupBlob loc = some c.payload := by
      show alookup (s.put c).blobs loc = some c.payload
      rw [hb, ← hp]
      exact hblob
    exact get_found_of (s.put c) c.addr (rc + 1) loc c.payload h1 h2

/-- C1 witness. -/
theorem contentAddressing_roundtrip_witness :
    (ChunkStore.empty.put ⟨[0, 7], [7]⟩).get [0, 7] = .found ⟨[0, 7], [7]⟩ :=
  contentAddressing_roundtrip (List.cons 0) (fun p q h => by simpa using h)
    ChunkStore.empty ⟨[0, 7], [7]⟩ rfl rfl

/-- C2.  Idempotent Put with deduplication: a second `Put` of the same chunk
increments the stored reference count but allocates no new Blob Store
location and stores no additional payload bytes (blob store and allocator
frontier unchanged); `Has` is true after either the first or the second
`Put`. -/
theorem put_dedup_idempotent (s : ChunkStore) (c : Chunk) :
    (s.put c).has c.addr = true ∧
    ((s.put c).put c).has c.addr = true ∧
    ((s.put c).put c).blobs = (s.put c).blobs ∧
    ((s.put c).put c).nextLoc = (s.put c).nextLoc ∧
    ∃ rc loc, (s.put c).lookupIndex c.addr = some (rc, loc) ∧
      ((s.put c).put c).lookupIndex c.addr = some (rc + 1, loc) := by
  have hex : ∃ rc loc, (s.put c).lookupIndex c.addr = some (rc, loc) := by
    cases h : s.lookupIndex c.addr with
    | none => exact ⟨1, s.nextLoc, (put_fresh_lookups s c h).1⟩
    | some v => exact ⟨v.1 + 1, v.2, (put_existing_lookups s c v.1 v.2 (by rw [h])).1⟩
  obtain ⟨rc, loc, h1⟩ := hex
  obtain ⟨h2, hb⟩ := put_existing_lookups (s.put c) c rc loc h1
  have hn : ((s.put c).put c).nextLoc = (s.put c).nextLoc := by
    rw [put_existing (s.put c) c rc loc h1]
  refine ⟨?_, ?_, hb, hn, rc, loc, h1, h2⟩
  · rw [ChunkStore.has, h1]; rfl
  · rw [ChunkStore.has, h2]; rfl

/-- C7.  Delete and reference counting: `Delete` decrements the reference
count, releasing the blob location and removing the metadata record exactly
when the count reaches zero; consequently Put A, Delete A, Get A yields
`ErrNotFound`, while Put A, Put A, Delete A, Get A succeeds with reference
count 1. -/
theorem delete_refcount (s : ChunkStore) (A : Chunk) :
    (∀ rc loc, s.lookupIndex A.addr = some (rc, loc) → 1 < rc →
      (s.delete A.addr).lookupIndex A.addr = some (rc - 1, loc) ∧
      (s.delete A.addr).blobs = s.blobs) ∧
    (∀ loc, s.lookupIndex A.addr = some (1, loc) →
      (s.delete A.addr).lookupIndex A.addr = none ∧
      (s.delete A.addr).lookupBlob loc = none) ∧
    (s.lookupIndex A.addr = none →
      ((s.put A).delete A.addr).get A.addr = .notFound) ∧
    (s.lookupIndex A.addr = none →
      (((s.put A).put A).delete A.addr).get A.addr = .found A ∧
      ∃ loc, (((s.put A).put A).delete A.addr).lookupIndex A.addr = some (1, loc)) := by
  refine ⟨fun rc loc h hrc => delete_dec_lookups s A.addr rc loc h hrc,
    fun loc h => delete_zero_lookups s A.addr loc h, ?_, ?_⟩
  · intro h
    obtain ⟨h1, _⟩ := put_fresh_lookups s A h
    obtain ⟨h3, _⟩ := delete_zero_lookups (s.put A) A.addr s.nextLoc h1
    exact get_notFound_of _ _ h3
  · intro h
    obtain ⟨h1, hB1⟩ := put_fresh_lookups s A h
    obtain ⟨h2, hb2⟩ := put_existing_lookups (s.put A) A 1 s.nextLoc h1
    obtain ⟨h3, hb3⟩ :=
      delete_dec_lookups ((s.put A).put A) A.addr (1 + 1) s.nextLoc h2 (by omega)
    have h1' : (((s.put A).put A).delete A.addr).lookupIndex A.addr =
        some (1, s.nextLoc) := h3
    have hB : (((s.put A).put A).delete A.addr).lookupBlob s.nextLoc =
        some A.payload := by
      show alookup (((s.put A).put A).delete A.addr).blobs s.nextLoc = some A.payload
      rw [hb3, hb2]
      exact hB1
    exact ⟨get_found_of _ _ 1 s.nextLoc A.payload h1' hB, s.nextLoc, h1'⟩

/-- C7 witness. -/
theorem delete_refcount_witness :
    ((ChunkStore.empty.put ⟨[1], [2]⟩).delete [1]).get [1] = .notFound ∧
    (((ChunkStore.empty.put ⟨[1], [2]⟩).put ⟨[1], [2]⟩).delete [1]).get [1] =
      .found ⟨[1], [2]⟩ :=
  ⟨(delete_refcount ChunkStore.empty ⟨[1], [2]⟩).2.2.1 rfl,
   ((delete_refcount ChunkStore.empty ⟨[1], [2]⟩).2.2.2 rfl).1⟩

/-! ## Index Store transactions -/

/-- A raw Index Store key (serialized namespace-prefixed item key). -/
abbrev IKey := List Nat

/-- A raw Index Store value (serialized item). -/
abbrev IVal := List Nat

/-- The committed state of the Index Store. -/
abbrev IStore := List (IKey × IVal)

/-- A buffered transaction write: a typed-item `Put` or `Delete`. -/
inductive TxnOp where
  | put (k : IKey) (v : IVal)
  | del (k : IKey)
deriving DecidableEq, Repr

/-- Modelled from the spec: a `Transaction` holds the committed state it was
opened against and buffers its writes in memory, oldest first. -/
structure Transaction where
  base : IStore
  buffer : List TxnOp
deriving DecidableEq, Repr

/-- Open a transaction against the committed store. -/
def Transaction.start (s : IStore) : Transaction := ⟨s, []⟩

/-- Buffer a `Put` of key `k` to value `v`. -/
def Transaction.putKV (t : Transaction) (k : IKey) (v : IVal) : Transaction :=
  { t with buffer := t.buffer ++ [.put k v] }

/-- Buffer a `Delete` of key `k`. -/
def Transaction.delKV (t : Transaction) (k : IKey) : Transaction :=
  { t with buffer := t.buffer ++ [.del k] }

/-- Apply one buffered write to a committed store. -/
def applyOp (s : IStore) : TxnOp → IStore
  | .put k v => aput s k v
  | .del k => aerase s k

/-- Modelled from the spec: `Commit` applies the buffered writes atomically,
in order, to the store the transaction was opened against. -/
def Transaction.commit (t : Transaction) : IStore := t.buffer.foldl applyOp t.base

/-- Modelled from the spec: `Rollback` (or any error/abort path before
`Commit`) discards the buffer; the committed store is untouched. -/
def Transaction.rollback (t : Transaction) : IStore := t.base

/-- The snapshot a concurrent reader sees while the transaction is open: the
last committed state, never the buffer. -/
def Transaction.readCommitted (t : Transaction) (k : IKey) : Option IVal :=
  alookup t.base k

/-- Buffer a whole list of writes, oldest first. -/
def Transaction.applyAll (t : Transaction) (ops : List TxnOp) : Transaction :=
  ops.foldl (fun t op =>
    match op with
    | .put k v => t.putKV k v
    | .del k => t.delKV k) t

theorem applyAll_base (t : Transaction) (ops : List TxnOp) :
    (t.applyAll ops).base = t.base := by
  induction ops generalizing t with
  | nil => rfl
  | cons op rest ih =>
    cases op with
    | put k v => exact ih (t.putKV k v)
    | del k => exact ih (t.delKV k)

theorem applyAll_buffer (t : Transaction) (ops : List TxnOp) :
    (t.applyAll ops).buffer = t.buffer ++ ops := by
  induction ops generalizing t with
  | nil => simp [Transaction.applyAll]
  | cons op rest ih =>
    cases op with
    | put k v =>
      show ((t.putKV k v).applyAll rest).buffer = t.buffer ++ (TxnOp.put k v :: rest)
      rw [ih (t.putKV k v)]
      simp [Transaction.putKV]
    | del k =>
      show ((t.delKV k).applyAll rest).buffer = t.buffer ++ (TxnOp.del k :: rest)
      rw [ih (t.delKV k)]
      simp [Transaction.delKV]

/-- C5.  Transaction atomicity: however many writes a transaction has
buffered, a `Rollback` (or any abort before `Commit`) leaves the committed
state of every key at its pre-transaction value, concurrent readers never see
a buffered write while the transaction is open, and `Commit` makes exactly
the buffered writes visible, all of them, in order. -/
theorem transaction_atomicity (s : IStore) (ops : List TxnOp) (k : IKey) :
    alookup ((Transaction.start s).applyAll ops).rollback k = alookup s k ∧
    ((Transaction.start s).applyAll ops).readCommitted k = alookup s k ∧
    alookup ((Transaction.start s).applyAll ops).commit k =
      alookup (ops.foldl applyOp s) k := by
  refine ⟨?_, ?_, ?_⟩
  · rw [Transaction.rollback, applyAll_base]
    rfl
  · rw [Transaction.readCommitted, applyAll_base]
    rfl
  · rw [Transaction.commit, applyAll_base, applyAll_buffer]
    rfl

/-! ## Cache-format migration `step_02` (translated from the source)

`step_02` iterates over every `CacheEntryItem` in the index store asking only
for the item IDs, rebuilds for each ID an entry whose `AccessTimestamp` is
the wall clock read at migration time, collects them, and then `Put`s each
rebuilt entry, overwriting the stored value under the unchanged key. -/

/-- The cache-entry namespace of the index store: chunk address (the item ID)
mapped to the stored access timestamp. -/
abbrev CacheIdx := List (Address × Nat)

/-- `step_02` from `pkg/storer/migration`: rebuild every cache entry with the
migration-time clock value `now` as its access timestamp and `Put` it back. -/
def step_02 (st : CacheIdx) (now : Nat) : CacheIdx :=
  let entries := st.map (fun e => (e.1, now))
  entries.foldl (fun acc e => aput acc e.1 e.2) st

theorem foldl_aput_cons (ops : List (Address × Nat)) (acc : CacheIdx)
    (k : Address) (v : Nat) (h : ∀ e ∈ ops, e.1 ≠ k) :
    List.foldl (fun acc e => aput acc e.1 e.2) ((k, v) :: acc) ops =
      (k, v) :: List.foldl (fun acc e => aput acc e.1 e.2) acc ops := by
  induction ops generalizing acc with
  | nil => rfl
  | cons op rest ih =>
    have hop : op.1 ≠ k := h op (List.mem_cons_self _ _)
    have hne : ¬ k = op.1 := fun hh => hop hh.symm
    show List.foldl _ (aput ((k, v) :: acc) op.1 op.2) rest = _
    rw [aput, if_neg hne]
    exact ih (aput acc op.1 op.2) (fun e he => h e (List.mem_cons_of_mem _ he))

theorem step_02_eq_map (st : CacheIdx) (now : Nat) (hnd : (akeys st).Nodup) :
    step_02 st now = st.map (fun e => (e.1, now)) := by
  induction st with
  | nil => rfl
  | cons e tl ih =>
    have hk : e.1 ∉ akeys tl := (List.nodup_cons.mp hnd).1
    have hnd' : (akeys tl).Nodup := (List.nodup_cons.mp hnd).2
    show List.foldl (fun acc x => aput acc x.1 x.2) (aput (e :: tl) e.1 now)
        (tl.map (fun e => (e.1, now))) = (e.1, now) :: tl.map (fun e => (e.1, now))
    rw [show aput (e :: tl) e.1 now = (e.1, now) :: tl by rw [aput, if_pos rfl]]
    have hcons := foldl_aput_cons (tl.map (fun e => (e.1, now))) tl e.1 now
      (fun x hx => by
        obtain ⟨y, hy, rfl⟩ := List.mem_map.mp hx
        intro hh
        have hh' : y.1 = e.1 := hh
        exact hk (hh' ▸ List.mem_map_of_mem Prod.fst hy))
    rw [hcons]
    have ihm : List.foldl (fun acc x => aput acc x.1 x.2) tl
        (tl.map (fun e => (e.1, now))) = tl.map (fun e => (e.1, now)) := ih hnd'
    rw [ihm]

/-- Looking up a key after rebuilding every entry with a constant value. -/
theorem alookup_map_const (st : CacheIdx) (m : Nat) (a : Address) :
    alookup (st.map (fun e => (e.1, m))) a = (alookup st a).map (fun _ => m) := by
  induction st with
  | nil => rfl
  | cons e tl ih =>
    by_cases he : e.1 = a
    · show alookup ((e.1, m) :: tl.map _) a = _
      rw [alookup, if_pos he, alookup, if_pos he]
      rfl
    · show alookup ((e.1, m) :: tl.map _) a = _
      rw [alookup, if_neg he, alookup, if_neg he]
      exact ih

theorem mem_akeys_iff (st : CacheIdx) (a : Address) :
    a ∈ akeys st ↔ ∃ b, alookup st a = some b := by
  induction st with
  | nil =>
    constructor
    · intro h; cases h
    · rintro ⟨b, hb⟩; cases hb
  | cons e tl ih =>
    by_cases he : e.1 = a
    · constructor
      · intro _
        exact ⟨e.2, by rw [alookup, if_pos he]⟩
      · intro _
        exact List.mem_cons.mpr (Or.inl he.symm)
    · rw [show alookup (e :: tl) a = alookup tl a by rw [alookup, if_neg he]]
      rw [show akeys (e :: tl) = e.1 :: akeys tl from rfl, List.mem_cons]
      constructor
      · rintro (h1 | h2)
        · exact absurd h1.symm he
        · exact ih.mp h2
      · intro h
        exact Or.inr (ih.mpr h)

/-- C10.  The cache-format migration `step_02` leaves the set of cache-entry
addresses exactly as it was (no address added or removed, order preserved),
while overwriting every entry's access timestamp with the migration-time
clock value; re-running it under a later clock changes the stored values
again, so the step is idempotent on the key set but not on the stored entry
values. -/
theorem step_02_effect (st : CacheIdx) (now : Nat) (hnd : (akeys st).Nodup) :
    akeys (step_02 st now) = akeys st ∧
    (∀ a ∈ akeys st, alookup (step_02 st now) a = some now) ∧
    (∀ a, a ∉ akeys st → alookup (step_02 st now) a = none) ∧
    (∀ now', step_02 (step_02 st now) now' = step_02 st now') ∧
    (st ≠ [] → ∀ now', now' ≠ now → step_02 st now' ≠ step_02 st now) := by
  have hmap := step_02_eq_map st now hnd
  refine ⟨?_, ?_, ?_, ?_, ?_⟩
  · rw [hmap]
    simp only [akeys, List.map_map]
    rfl
  · intro a ha
    obtain ⟨b, hb⟩ := (mem_akeys_iff st a).mp ha
    rw [hmap, alookup_map_const, hb]
    rfl
  · intro a ha
    have hb : alookup st a = none := by
      cases hx : alookup st a with
      | none => rfl
      | some b => exact absurd ((mem_akeys_iff st a).mpr ⟨b, hx⟩) ha
    rw [hmap, alookup_map_const, hb]
    rfl
  · intro now'
    have hnd2 : (akeys (step_02 st now)).Nodup := by
      have hk2 : akeys (step_02 st now) = akeys st := by
        rw [hmap]
        simp only [akeys, List.map_map]
        rfl
      rw [hk2]
      exact hnd
    rw [step_02_eq_map _ now' hnd2, hmap, List.map_map, step_02_eq_map st now' hnd]
    rfl
  · intro hne now' hnow
    rw [hmap, step_02_eq_map st now' hnd]
    cases st with
    | nil => exact absurd rfl hne
    | cons e tl =>
      simp only [List.map_cons]
      intro hcontra
      have hhead : ((e.1, now') : Address × Nat) = (e.1, now) := (List.cons.inj hcontra).1
      exact hnow (congrArg Prod.snd hhead)

/-- C10 witness. -/
theorem step_02_effect_witness :
    akeys (step_02 [([1], 5), ([2], 9)] 100) = [[1], [2]] ∧
    alookup (step_02 [([1], 5), ([2], 9)] 100) [1] = some 100 ∧
    step_02 [([1], 5), ([2], 9)] 200 ≠ step_02 [([1], 5), ([2], 9)] 100 :=
  ⟨(step_02_effect [([1], 5), ([2], 9)] 100 (by decide)).1,
   (step_02_effect [([1], 5), ([2], 9)] 100 (by decide)).2.1 [1] (by decide),
   (step_02_effect [([1], 5), ([2], 9)] 100 (by decide)).2.2.2.2 (by decide) 200
     (by decide)⟩

/-! ## Migration framework -/

/-- Modelled from the spec: a migration step is a versioned, numbered
function; running it against the store may fail with an error. -/
structure MigStep (σ : Type) where
  version : Nat
  run : σ → Except String σ

/-- Modelled from the spec: the persisted schema-version marker together with
the store a migration acts on. -/
structure MigState (σ : Type) where
  marker : Nat
  store : σ
deriving DecidableEq, Repr

/-- Modelled from the spec and the migration tests: `ValidateVersions` checks
that the step list carries strictly ascending version numbers. -/
def validateVersions {σ : Type} : List (MigStep σ) → Bool
  | [] => true
  | [_] => true
  | s1 :: s2 :: rest => decide (s1.version < s2.version) && validateVersions (s2 :: rest)

/-- Modelled from the spec: at startup every step whose version is at or
below the persisted schema-version marker is skipped; a pending step runs
inside its own transaction, and on success the marker advances to that
step's version before the next step is considered; the first failing step's
error is returned and the migration halts. -/
def migrate {σ : Type} : List (MigStep σ) → MigState σ → Except String (MigState σ)
  | [], st => .ok st
  | step :: rest, st =>
    if step.version ≤ st.marker then migrate rest st
    else
      match step.run st.store with
      | .error e => .error e
      | .ok s' => migrate rest ⟨step.version, s'⟩

/-- Run a list of steps unconditionally, in order, halting at the first
error and persisting each completed step's version. -/
def runAll {σ : Type} : List (MigStep σ) → MigState σ → Except String (MigState σ)
  | [], st => .ok st
  | step :: rest, st =>
    match step.run st.store with
    | .error e => .error e
    | .ok s' => runAll rest ⟨step.version, s'⟩

theorem validateVersions_iff {σ : Type} (steps : List (MigStep σ)) :
    validateVersions steps = true ↔
      List.Chain' (fun a b => a < b) (steps.map MigStep.version) := by
  induction steps with
  | nil => simp [validateVersions]
  | cons s1 rest ih =>
    cases rest with
    | nil => simp [validateVersions]
    | cons s2 rest' =>
      rw [validateVersions, Bool.and_eq_true, decide_eq_true_eq]
      rw [List.map_cons, List.map_cons, List.chain'_cons]
      rw [ih]
      rw [List.map_cons]

theorem migrate_skip_all {σ : Type} (steps : List (MigStep σ)) (st : MigState σ)
    (h : ∀ s ∈ steps, s.version ≤ st.marker) :
    migrate steps st = .ok st := by
  induction steps with
  | nil => rfl
  | cons step rest ih =>
    rw [migrate, if_pos (h step (List.mem_cons_self _ _))]
    exact ih (fun s hs => h s (List.mem_cons_of_mem _ hs))

theorem migrate_halts_on_error {σ : Type} (pre post : List (MigStep σ))
    (fs : MigStep σ) (st : MigState σ) (e : String)
    (h : migrate (pre ++ [fs]) st = .error e) :
    migrate (pre ++ fs :: post) st = .error e := by
  induction pre generalizing st with
  | nil =>
    rw [List.nil_append] at h ⊢
    rw [migrate] at h ⊢
    by_cases hv : fs.version ≤ st.marker
    · rw [if_pos hv] at h
      exact absurd h (fun hh => Except.noConfusion hh)
    · rw [if_neg hv] at h ⊢
      cases hr : fs.run st.store with
      | error e' =>
        rw [hr] at h
        exact h
      | ok s' =>
        rw [hr] at h
        exact absurd h (fun hh => Except.noConfusion hh)
  | cons step pre' ih =>
    rw [List.cons_append] at h ⊢
    rw [migrate] at h ⊢
    by_cases hv : step.version ≤ st.marker
    · rw [if_pos hv] at h ⊢
      exact ih st h
    · rw [if_neg hv] at h ⊢
      cases hr : step.run st.store with
      | error e' =>
        rw [hr] at h
        exact h
      | ok s' =>
        rw [hr] at h
        exact ih ⟨step.version, s'⟩ h

theorem migrate_eq_runAll_pending {σ : Type} (steps : List (MigStep σ))
    (st : MigState σ)
    (hsorted : List.Chain' (fun a b => a < b) (steps.map MigStep.version)) :
    migrate steps st = runAll (steps.filter (fun s => st.marker < s.version)) st := by
  induction steps generalizing st with
  | nil => rfl
  | cons step rest ih =>
    have hpair : List.Pairwise (fun a b => a < b) ((step :: rest).map MigStep.version) :=
      List.chain'_iff_pairwise.mp hsorted
    have hrest : ∀ s ∈ rest, step.version < s.version := by
      intro s hs
      have := (List.pairwise_cons.mp hpair).1 s.version
        (List.mem_map_of_mem MigStep.version hs)
      exact this
    have htail : List.Chain' (fun a b => a < b) (rest.map MigStep.version) :=
      (List.chain'_cons'.mp (by simpa using hsorted)).2
    rw [migrate]
    by_cases hv : step.version ≤ st.marker
    · rw [if_pos hv]
      rw [List.filter_cons_of_neg (by simpa using Nat.not_lt.mpr hv)]
      exact ih st htail
    · rw [if_neg hv]
      have hlt : st.marker < step.version := Nat.not_le.mp hv
      rw [List.filter_cons_of_pos (by simpa using hlt)]
      have hfilters : rest.filter (fun s => step.version < s.version) =
          rest.filter (fun s => st.marker < s.version) := by
        rw [List.filter_eq_self.mpr, List.filter_eq_self.mpr]
        · intro s hs
          exact decide_eq_true (Nat.lt_trans hlt (hrest s hs))
        · intro s hs
          exact decide_eq_true (hrest s hs)
      cases hr : step.run st.store with
      | error e =>
        rw [runAll, hr]
      | ok s' =>
        rw [runAll, hr]
        show migrate rest ⟨step.version, s'⟩ =
          runAll (rest.filter (fun s => st.marker < s.version)) ⟨step.version, s'⟩
        rw [ih ⟨step.version, s'⟩ htail, hfilters]

/-- C9.  Migration execution contract: `ValidateVersions` accepts exactly the
strictly ascending step sequences; under a validated sequence, startup
migration executes exactly the steps past the persisted schema-version
marker, once each, in ascending order, each advancing the marker (it
coincides with a single ordered pass over the pending steps); steps at or
below the marker are never re-executed; and on the first failing step the
migration returns that step's error and applies no subsequent step. -/
theorem migration_contract {σ : Type} (steps pre post : List (MigStep σ))
    (fs : MigStep σ) (st : MigState σ) (e : String) :
    (validateVersions steps = true ↔
      List.Chain' (fun a b => a < b) (steps.map MigStep.version)) ∧
    (validateVersions steps = true →
      migrate steps st = runAll (steps.filter (fun s => st.marker < s.version)) st) ∧
    ((∀ s ∈ steps, s.version ≤ st.marker) → migrate steps st = .ok st) ∧
    (migrate (pre ++ [fs]) st = .error e →
      migrate (pre ++ fs :: post) st = .error e) :=
  ⟨validateVersions_iff steps,
   fun hv => migrate_eq_runAll_pending steps st ((validateVersions_iff steps).mp hv),
   migrate_skip_all steps st,
   migrate_halts_on_error pre post fs st e⟩

/-- A migration step over a version-log store that always succeeds,
recording its execution. -/
def logStep (v : Nat) : MigStep (List Nat) :=
  ⟨v, fun log => .ok (log ++ [v])⟩

/-- A migration step that always fails. -/
def badStep (v : Nat) : MigStep (List Nat) :=
  ⟨v, fun _ => .error "step failed"⟩

/-- C9 witness. -/
theorem migration_contract_witness :
    validateVersions [logStep 1, logStep 3, logStep 4] = true ∧
    migrate [logStep 1, logStep 3, logStep 4] ⟨1, []⟩ =
      runAll [logStep 3, logStep 4] ⟨1, []⟩ ∧
    migrate [logStep 1, badStep 3, logStep 4] ⟨0, []⟩ = .error "step failed" := by
  refine ⟨rfl, ?_, ?_⟩
  · have h := (migration_contract [logStep 1, logStep 3, logStep 4] [] []
      (logStep 1) ⟨1, []⟩ "").2.1 (by rfl)
    exact h
  · have h := (migration_contract ([] : List (MigStep (List Nat))) [logStep 1]
      [logStep 4] (badStep 3) ⟨0, []⟩ "step failed").2.2.2 (by rfl)
    exact h

/-! ## Reserve -/

/-- A reserve entry: chunk address, proximity bin, and insertion timestamp
(batch id and stamp index play no role in the sweep claims). -/
structure ReserveEntry where
  addr : Address
  bin : Nat
  ts : Nat
deriving DecidableEq, Repr

/-- Modelled from the spec: the capacity-bounded reserve, its entries
partitioned by proximity bin. -/
structure Reserve where
  capacity : Nat
  entries : List ReserveEntry
deriving DecidableEq, Repr

/-- Current reserve population. -/
def Reserve.size (r : Reserve) : Nat := r.entries.length

/-- Eviction precedence: lowest (farthest-from-self) bin first, oldest
insertion timestamp first within a bin. -/
def evictRel (e1 e2 : ReserveEntry) : Prop :=
  e1.bin < e2.bin ∨ (e1.bin = e2.bin ∧ e1.ts ≤ e2.ts)

instance : DecidableRel evictRel := fun e1 e2 =>
  decidable_of_iff (e1.bin < e2.bin ∨ (e1.bin = e2.bin ∧ e1.ts ≤ e2.ts)) Iff.rfl

instance : IsTotal ReserveEntry evictRel :=
  ⟨fun a b => by unfold evictRel; omega⟩

instance : IsTrans ReserveEntry evictRel :=
  ⟨fun a b c h1 h2 => by unfold evictRel at h1 h2 ⊢; omega⟩

/-- The reserve's entries in the order a sweep evicts them. -/
def Reserve.evictionOrder (r : Reserve) : List ReserveEntry :=
  List.insertionSort evictRel r.entries

/-- How many entries a sweep toward `target` evicts. -/
def Reserve.evictCount (r : Reserve) (target : Nat) : Nat := r.size - target

/-- The entries a sweep toward `target` evicts. -/
def Reserve.evicted (r : Reserve) (target : Nat) : List ReserveEntry :=
  (r.evictionOrder).take (r.evictCount target)

/-- The entries a sweep toward `target` retains. -/
def Reserve.retained (r : Reserve) (target : Nat) : List ReserveEntry :=
  (r.evictionOrder).drop (r.evictCount target)

/-- Modelled from the spec: an eviction sweep removes entries in eviction
precedence order — lowest populated bin first, oldest-timestamp-first within
a bin — stopping as soon as the population is at or under `target`. -/
def Reserve.sweep (r : Reserve) (target : Nat) : Reserve :=
  { r with entries := r.retained target }

/-- Modelled from the spec: reserve insertion places the entry in its
proximity bin (recorded on the entry itself). -/
def Reserve.putEntry (r : Reserve) (e : ReserveEntry) : Reserve :=
  { r with entries := e :: r.entries }

/-- A reserve operation: an insertion, or a completed sweep back to the
configured capacity. -/
inductive ROp where
  | put (e : ReserveEntry)
  | sweep
deriving DecidableEq, Repr

/-- Run a sequence of reserve operations. -/
def Reserve.exec (r : Reserve) : List ROp → Reserve
  | [] => r
  | ROp.put e :: rest => (r.putEntry e).exec rest
  | ROp.sweep :: rest => (r.sweep r.capacity).exec rest

theorem exec_append (r : Reserve) (xs ys : List ROp) :
    r.exec (xs ++ ys) = (r.exec xs).exec ys := by
  induction xs generalizing r with
  | nil => rfl
  | cons op rest ih =>
    cases op with
    | put e => exact ih (r.putEntry e)
    | sweep => exact ih (r.sweep r.capacity)

theorem exec_capacity (r : Reserve) (ops : List ROp) :
    (r.exec ops).capacity = r.capacity := by
  induction ops generalizing r with
  | nil => rfl
  | cons op rest ih =>
    cases op with
    | put e => exact ih (r.putEntry e)
    | sweep => exact ih (r.sweep r.capacity)

theorem evictionOrder_length (r : Reserve) : r.evictionOrder.length = r.size :=
  (List.perm_insertionSort evictRel r.entries).length_eq

theorem sweep_size_le (r : Reserve) (target : Nat) : (r.sweep target).size ≤ target := by
  show (r.retained target).length ≤ target
  rw [Reserve.retained, List.length_drop, evictionOrder_length]
  rw [Reserve.evictCount]
  omega

/-- C3.  Reserve capacity invariant: starting from an empty reserve, for
every sequence of Put and sweep operations, at every state where a sweep has
just completed the reserve population is at most the configured capacity. -/
theorem reserve_capacity_invariant (cap : Nat) (ops : List ROp) :
    ((Reserve.mk cap []).exec (ops ++ [ROp.sweep])).size ≤ cap := by
  rw [exec_append]
  show (((Reserve.mk cap []).exec ops).sweep ((Reserve.mk cap []).exec ops).capacity).size ≤ cap
  rw [exec_capacity]
  exact sweep_size_le _ cap

theorem evictionOrder_sorted (r : Reserve) : List.Sorted evictRel r.evictionOrder :=
  List.sorted_insertionSort evictRel r.entries

/-- C6.  Eviction sweep ordering: on a reserve with bins 0, 1 and 2 populated
and population over capacity, a sweep toward a lower target evicts in
lowest-bin-first, oldest-timestamp-first-within-a-bin order — in particular
if any bin-1 entry is evicted then no bin-0 entry remains — and stops exactly
when the population reaches the target. -/
theorem eviction_sweep_ordering (r : Reserve) (t : Nat)
    (h0 : ∃ e ∈ r.entries, e.bin = 0) (h1 : ∃ e ∈ r.entries, e.bin = 1)
    (h2 : ∃ e ∈ r.entries, e.bin = 2)
    (hover : r.capacity < r.size) (ht : t ≤ r.capacity) :
    (∀ e1 ∈ r.evicted t, ∀ e2 ∈ r.retained t,
      e1.bin < e2.bin ∨ (e1.bin = e2.bin ∧ e1.ts ≤ e2.ts)) ∧
    ((∃ e ∈ r.evicted t, e.bin = 1) → ∀ e2 ∈ r.retained t, e2.bin ≠ 0) ∧
    (r.sweep t).size = t ∧
    (r.sweep t).entries = r.retained t := by
  have hrel : ∀ e1 ∈ r.evicted t, ∀ e2 ∈ r.retained t, evictRel e1 e2 :=
    fun e1 he1 e2 he2 =>
      (evictionOrder_sorted r).rel_of_mem_take_of_mem_drop he1 he2
  refine ⟨hrel, ?_, ?_, rfl⟩
  · rintro ⟨e1, he1, hbin1⟩ e2 he2 hbin2
    have := hrel e1 he1 e2 he2
    rw [evictRel] at this
    omega
  · show (r.retained t).length = t
    rw [Reserve.retained, List.length_drop, evictionOrder_length, Reserve.evictCount]
    omega

/-- A sample over-capacity reserve with bins 0, 1 and 2 populated. -/
def sampleReserve : Reserve :=
  ⟨4, [⟨[1], 0, 10⟩, ⟨[2], 0, 5⟩, ⟨[3], 1, 7⟩, ⟨[4], 1, 3⟩, ⟨[5], 2, 9⟩, ⟨[6], 2, 1⟩]⟩

/-- C6 witness. -/
theorem eviction_sweep_ordering_witness :
    (∀ e1 ∈ sampleReserve.evicted 3, ∀ e2 ∈ sampleReserve.retained 3,
      e1.bin < e2.bin ∨ (e1.bin = e2.bin ∧ e1.ts ≤ e2.ts)) ∧
    ((∃ e ∈ sampleReserve.evicted 3, e.bin = 1) →
      ∀ e2 ∈ sampleReserve.retained 3, e2.bin ≠ 0) ∧
    (sampleReserve.sweep 3).size = 3 ∧
    (sampleReserve.sweep 3).entries = sampleReserve.retained 3 :=
  eviction_sweep_ordering sampleReserve 3 (by decide) (by decide) (by decide)
    (by decide) (by decide)

/-- The lowest populated bin of a list of reserve entries, if any. -/
def minBin : List ReserveEntry → Option Nat
  | [] => none
  | e :: rest =>
    match minBin rest with
    | none => some e.bin
    | some m => some (min e.bin m)

/-- Modelled from the spec: the radius is recomputed after each sweep as the
smallest bin index still populated — every bin below it is fully evicted. -/
def Reserve.radius (r : Reserve) : Nat := (minBin r.entries).getD 0

/-- Cumulative population of the bins at depth `d` and beyond. -/
def Reserve.cumFrom (r : Reserve) (d : Nat) : Nat :=
  r.entries.countP (fun e => d ≤ e.bin)

theorem minBin_isSome (l : List ReserveEntry) (h : l ≠ []) :
    ∃ m, minBin l = some m := by
  cases l with
  | nil => exact absurd rfl h
  | cons e rest =>
    cases hm : minBin rest with
    | none => exact ⟨e.bin, by rw [minBin, hm]⟩
    | some m => exact ⟨min e.bin m, by rw [minBin, hm]⟩

theorem minBin_eq_none (l : List ReserveEntry) (h : minBin l = none) : l = [] := by
  cases l with
  | nil => rfl
  | cons e rest =>
    cases hm : minBin rest with
    | none => rw [minBin, hm] at h; cases h
    | some m => rw [minBin, hm] at h; cases h

theorem minBin_le (l : List ReserveEntry) (m : Nat) (h : minBin l = some m) :
    ∀ e ∈ l, m ≤ e.bin := by
  induction l generalizing m with
  | nil => cases h
  | cons e rest ih =>
    intro x hx
    cases hm : minBin rest with
    | none =>
      rw [minBin, hm] at h
      obtain rfl : e.bin = m := Option.some.inj h
      rcases List.mem_cons.mp hx with rfl | hx'
      · exact le_refl _
      · rw [minBin_eq_none rest hm] at hx'
        cases hx'
    | some mr =>
      rw [minBin, hm] at h
      have hmin : min e.bin mr = m := Option.some.inj h
      rcases List.mem_cons.mp hx with rfl | hx'
      · omega
      · have := ih mr hm x hx'
        omega

theorem minBin_mem (l : List ReserveEntry) (m : Nat) (h : minBin l = some m) :
    ∃ e ∈ l, e.bin = m := by
  induction l generalizing m with
  | nil => cases h
  | cons e rest ih =>
    cases hm : minBin rest with
    | none =>
      rw [minBin, hm] at h
      exact ⟨e, List.mem_cons_self _ _, Option.some.inj h⟩
    | some mr =>
      rw [minBin, hm] at h
      have hmin : min e.bin mr = m := Option.some.inj h
      by_cases hc : e.bin ≤ mr
      · exact ⟨e, List.mem_cons_self _ _, by omega⟩
      · obtain ⟨x, hx, hxm⟩ := ih mr hm
        exact ⟨x, List.mem_cons_of_mem _ hx, by omega⟩

/-- A sweep partitions each bin population count between evicted and
retained entries. -/
theorem countP_split (r : Reserve) (t : Nat) (p : ReserveEntry → Bool) :
    r.entries.countP p = (r.evicted t).countP p + (r.retained t).countP p := by
  have h1 : r.evictionOrder.countP p = r.entries.countP p :=
    (List.perm_insertionSort evictRel r.entries).countP_eq p
  conv_lhs => rw [← h1, ← List.take_append_drop (r.evictCount t) r.evictionOrder]
  exact List.countP_append _ _ _

/-- C8.  Radius recomputation: after a sweep toward target `t`, when `d` is
the bin depth at which the cumulative population first exceeds the target —
more than `t` entries sit in bins `≥ d` but fewer than `t` in bins `≥ d+1` —
the recomputed radius equals `d`, every retained entry's proximity bin is at
least the radius, bin `d` itself stays populated, and every bin below the
radius is fully evicted. -/
theorem radius_recomputation (r : Reserve) (t d : Nat)
    (hcum1 : t < r.cumFrom d) (hcum2 : r.cumFrom (d + 1) < t) :
    (r.sweep t).radius = d ∧
    (∀ e ∈ (r.sweep t).entries, d ≤ e.bin) ∧
    (∃ e ∈ (r.sweep t).entries, e.bin = d) ∧
    (∀ b, b < (r.sweep t).radius → ∀ e ∈ (r.sweep t).entries, e.bin ≠ b) := by
  have hcd : r.cumFrom d = r.entries.countP (fun e => decide (d ≤ e.bin)) := rfl
  have hky : r.entries.countP (fun e => decide (d ≤ e.bin)) ≤ r.size :=
    List.countP_le_length _
  have hlen : (r.retained t).length = t := by
    rw [Reserve.retained, List.length_drop, evictionOrder_length, Reserve.evictCount]
    omega
  have hA : ∀ e ∈ r.retained t, d ≤ e.bin := by
    by_contra hcon
    push_neg at hcon
    obtain ⟨e, he, hbin⟩ := hcon
    have hz : (r.evicted t).countP (fun x => decide (d ≤ x.bin)) = 0 := by
      refine List.countP_eq_zero.mpr ?_
      intro x hx
      have hrel := (evictionOrder_sorted r).rel_of_mem_take_of_mem_drop hx he
      rw [evictRel] at hrel
      simp only [decide_eq_true_eq]
      omega
    have hret_le : (r.retained t).countP (fun x => decide (d ≤ x.bin)) ≤
        (r.retained t).length := List.countP_le_length _
    have hsp := countP_split r t (fun x => decide (d ≤ x.bin))
    omega
  have hB : ∃ e ∈ r.retained t, e.bin = d := by
    by_contra hcon
    push_neg at hcon
    have hall : ∀ e ∈ r.retained t, decide (d + 1 ≤ e.bin) = true := by
      intro e he
      have g1 := hA e he
      have g2 := hcon e he
      simp only [decide_eq_true_eq]
      omega
    have hfull : (r.retained t).countP (fun e => decide (d + 1 ≤ e.bin)) =
        (r.retained t).length := List.countP_eq_length.mpr hall
    have hsp := countP_split r t (fun e => decide (d + 1 ≤ e.bin))
    have hc1 : r.cumFrom (d + 1) =
        r.entries.countP (fun e => decide (d + 1 ≤ e.bin)) := rfl
    omega
  have hne : r.retained t ≠ [] := by
    intro hh
    obtain ⟨e, he, _⟩ := hB
    rw [hh] at he
    cases he
  obtain ⟨mm, hmm⟩ := minBin_isSome (r.retained t) hne
  have hmm_le : ∀ e ∈ r.retained t, mm ≤ e.bin := minBin_le _ _ hmm
  obtain ⟨e0, he0, he0bin⟩ := minBin_mem _ _ hmm
  have hmmd : mm = d := by
    obtain ⟨e1, he1, he1bin⟩ := hB
    have g1 := hA e0 he0
    have g2 := hmm_le e1 he1
    omega
  have hrad : (r.sweep t).radius = d := by
    show (minBin (r.retained t)).getD 0 = d
    rw [hmm, hmmd]
    rfl
  refine ⟨hrad, hA, hB, ?_⟩
  intro b hb e he
  have := hA e he
  rw [hrad] at hb
  omega

/-- A sample reserve whose cumulative bin population first exceeds target 2
at bin depth 1. -/
def sampleReserveB : Reserve :=
  ⟨4, [⟨[1], 0, 10⟩, ⟨[2], 1, 5⟩, ⟨[3], 1, 7⟩, ⟨[4], 2, 3⟩]⟩

/-- C8 witness. -/
theorem radius_recomputation_witness :
    (sampleReserveB.sweep 2).radius = 1 ∧
    (∀ e ∈ (sampleReserveB.sweep 2).entries, 1 ≤ e.bin) ∧
    (∃ e ∈ (sampleReserveB.sweep 2).entries, e.bin = 1) ∧
    (∀ b, b < (sampleReserveB.sweep 2).radius →
      ∀ e ∈ (sampleReserveB.sweep 2).entries, e.bin ≠ b) :=
  radius_recomputation sampleReserveB 2 1 (by decide) (by decide)

/-! ## Cache / Reserve coordination -/

/-- Modelled from the spec: the state shared by the cache and the reserve —
the cache index namespace, the reserve index namespace (each a set of chunk
addresses), and the set of addresses live in the underlying Chunk Store. -/
structure NodeState where
  cache : List Address
  reserve : List Address
  chunks : List Address
deriving DecidableEq, Repr

/-- Add an address to a namespace (no duplicates). -/
def insertAddr (l : List Address) (a : Address) : List Address :=
  if a ∈ l then l else a :: l

/-- Remove an address from a namespace. -/
def removeAddr (l : List Address) (a : Address) : List Address :=
  l.filter (fun x => ¬ x = a)

/-- A cache or reserve operation over the shared state. -/
inductive NOp where
  | cachePut (a : Address)
  | reservePut (a : Address)
  | cacheEvict (a : Address)
  | reserveEvict (a : Address)
deriving DecidableEq, Repr

/-- Modelled from the spec: cache Put guards a chunk that is not in the
reserve (reserve membership supersedes cache membership); reserve Put
promotes — it removes any existing cache entry for the address without
deleting the underlying chunk; cache eviction deletes the chunk from the
Chunk Store unless it is reserve-protected; reserve eviction drops only the
reserve entry. -/
def napply (s : NodeState) : NOp → NodeState
  | .cachePut a =>
    if a ∈ s.reserve then { s with chunks := insertAddr s.chunks a }
    else { s with cache := insertAddr s.cache a, chunks := insertAddr s.chunks a }
  | .reservePut a =>
    { cache := removeAddr s.cache a
      reserve := insertAddr s.reserve a
      chunks := insertAddr s.chunks a }
  | .cacheEvict a =>
    { s with
      cache := removeAddr s.cache a
      chunks := if a ∈ s.reserve then s.chunks else removeAddr s.chunks a }
  | .reserveEvict a => { s with reserve := removeAddr s.reserve a }

/-- The state of a freshly initialized node: everything empty. -/
def NodeState.initial : NodeState := ⟨[], [], []⟩

/-- Run a sequence of cache/reserve operations from the initial state. -/
def runOps (ops : List NOp) : NodeState := ops.foldl napply NodeState.initial

/-- No address is simultaneously in the cache and the reserve namespaces. -/
def disjointCR (s : NodeState) : Prop := ∀ a, ¬ (a ∈ s.cache ∧ a ∈ s.reserve)

theorem mem_insertAddr (l : List Address) (a x : Address) :
    x ∈ insertAddr l a ↔ x = a ∨ x ∈ l := by
  rw [insertAddr]
  by_cases h : a ∈ l
  · rw [if_pos h]
    constructor
    · exact Or.inr
    · rintro (rfl | hx)
      · exact h
      · exact hx
  · rw [if_neg h]
    exact List.mem_cons

theorem mem_removeAddr (l : List Address) (a x : Address) :
    x ∈ removeAddr l a ↔ x ∈ l ∧ x ≠ a := by
  rw [removeAddr]
  simp [List.mem_filter]

theorem napply_preserves_disjoint (s : NodeState) (op : NOp) (h : disjointCR s) :
    disjointCR (napply s op) := by
  cases op with
  | cachePut a =>
    show disjointCR (if a ∈ s.reserve then _ else _)
    by_cases hr : a ∈ s.reserve
    · rw [if_pos hr]
      exact h
    · rw [if_neg hr]
      rintro x ⟨hxc, hxr⟩
      rcases (mem_insertAddr _ _ _).mp hxc with rfl | hxc'
      · exact hr hxr
      · exact h x ⟨hxc', hxr⟩
  | reservePut a =>
    rintro x ⟨hxc, hxr⟩
    obtain ⟨hxc', hxne⟩ := (mem_removeAddr _ _ _).mp hxc
    rcases (mem_insertAddr _ _ _).mp hxr with rfl | hxr'
    · exact hxne rfl
    · exact h x ⟨hxc', hxr'⟩
  | cacheEvict a =>
    rintro x ⟨hxc, hxr⟩
    exact h x ⟨((mem_removeAddr _ _ _).mp hxc).1, hxr⟩
  | reserveEvict a =>
    rintro x ⟨hxc, hxr⟩
    exact h x ⟨hxc, ((mem_removeAddr _ _ _).mp hxr).1⟩

theorem runOps_disjoint (ops : List NOp) : disjointCR (runOps ops) := by
  have hgen : ∀ s, disjointCR s → disjointCR (ops.foldl napply s) := by
    induction ops with
    | nil => exact fun s h => h
    | cons op rest ih => exact fun s h => ih _ (napply_preserves_disjoint s op h)
  exact hgen NodeState.initial (fun a hx => by cases hx.1)

/-- C4.  Cache/Reserve disjointness: after any sequence of cache Put, reserve
Put, promotion and eviction operations from the initial state, no address is
simultaneously present in both the cache and the reserve index namespaces;
and when the reserve inserts an address holding a cache entry, that cache
entry is removed while the underlying chunk stays in the Chunk Store. -/
theorem cache_reserve_disjoint (ops : List NOp) (s : NodeState) (a : Address) :
    (∀ x, ¬ (x ∈ (runOps ops).cache ∧ x ∈ (runOps ops).reserve)) ∧
    (a ∈ s.cache → a ∈ s.chunks →
      a ∉ (napply s (.reservePut a)).cache ∧
      a ∈ (napply s (.reservePut a)).reserve ∧
      (napply s (.reservePut a)).chunks = s.chunks) := by
  refine ⟨runOps_disjoint ops, ?_⟩
  intro hac hach
  refine ⟨?_, ?_, ?_⟩
  · intro hmem
    exact ((mem_removeAddr _ _ _).mp hmem).2 rfl
  · exact (mem_insertAddr _ _ _).mpr (Or.inl rfl)
  · show insertAddr s.chunks a = s.chunks
    rw [insertAddr, if_pos hach]

/-- C4 witness. -/
theorem cache_reserve_disjoint_witness :
    (∀ x, ¬ (x ∈ (runOps [.cachePut [1], .reservePut [1]]).cache ∧
      x ∈ (runOps [.cachePut [1], .reservePut [1]]).reserve)) ∧
    ([1] ∉ (napply ⟨[[1]], [], [[1]]⟩ (.reservePut [1])).cache ∧
      [1] ∈ (napply ⟨[[1]], [], [[1]]⟩ (.reservePut [1])).reserve ∧
      (napply ⟨[[1]], [], [[1]]⟩ (.reservePut [1])).chunks = [[1]]) :=
  ⟨(cache_reserve_disjoint [.cachePut [1], .reservePut [1]]
      ⟨[[1]], [], [[1]]⟩ [1]).1,
   (cache_reserve_disjoint [.cachePut [1], .reservePut [1]]
      ⟨[[1]], [], [[1]]⟩ [1]).2 (by decide) (by decide)⟩

end BeeTron
